import Mathlib

/-!
Verification of the diff renderer (`cli/src/diff_util.rs`) and the fix engine
(`cli/src/commands/fix.rs`) of the jj command-line frontend.

File contents are embedded as `List Nat` byte buffers.  The external
line-level diff (`jj_lib::diff::Diff::for_tokenizer` with `find_line_ranges`)
and the external line differ `jj_lib::files::diff` are not part of the two
source files; they are modelled from the specification (a common-prefix /
common-suffix line diff, i.e. a "Myers or equivalent" alternation of
`Matching` and `Different` segments whose projections concatenate to the two
inputs).  Everything else is translated directly from the Rust source.
-/

namespace JJSpec

/-- Bytes are natural numbers below 256; only equality with the newline byte
matters for the algorithms verified here. -/
abbrev Byte := Nat

/-- The newline byte `b'\n'`. -/
def nlByte : Byte := 10

/-- Embedding of Rust `split_inclusive(|b| *b == b'\n')` on byte slices:
split into lines, each line keeping its trailing newline; a final line
without a newline is still a line; the empty buffer has no lines. -/
def splitInclusive : List Byte → List (List Byte)
  | [] => []
  | b :: rest =>
    if b = nlByte then [b] :: splitInclusive rest
    else
      match splitInclusive rest with
      | [] => [[b]]
      | l :: ls => (b :: l) :: ls

theorem flatten_splitInclusive (s : List Byte) : (splitInclusive s).flatten = s := by
  induction s with
  | nil => rfl
  | cons b rest ih =>
    by_cases h : b = nlByte
    · simp [splitInclusive, h] at ih ⊢
      exact ih
    · simp only [splitInclusive, if_neg h]
      cases hrest : splitInclusive rest with
      | nil =>
        have : rest = [] := by
          have := ih
          rw [hrest] at this
          simpa using this.symm
        simp [this]
      | cons l ls =>
        rw [hrest] at ih
        simp only [List.flatten_cons] at ih ⊢
        simp [ih]

/-- A byte list that is a complete line: it ends with a newline and contains
no interior newline. -/
def ClosedLine (l : List Byte) : Prop := ∃ body, nlByte ∉ body ∧ l = body ++ [nlByte]

/-- A byte list that is a line: either closed, or nonempty with no newline at
all (the final line of a buffer that does not end with a newline). -/
def IsLine (l : List Byte) : Prop := ClosedLine l ∨ (l ≠ [] ∧ nlByte ∉ l)

/-- A well-formed chunk of lines: all lines closed except possibly the last,
which is still a line. -/
def WfChunk : List (List Byte) → Prop
  | [] => True
  | [l] => IsLine l
  | l :: l' :: ls => ClosedLine l ∧ WfChunk (l' :: ls)

theorem closedLine_isLine {l : List Byte} (h : ClosedLine l) : IsLine l := Or.inl h

theorem wfChunk_cons_of_closed {x : List Byte} {xs : List (List Byte)}
    (hx : ClosedLine x) (hxs : WfChunk xs) : WfChunk (x :: xs) := by
  cases xs with
  | nil => exact closedLine_isLine hx
  | cons y ys => exact ⟨hx, hxs⟩

theorem wfChunk_cons_elim {x : List Byte} {xs : List (List Byte)}
    (h : WfChunk (x :: xs)) : IsLine x ∧ WfChunk xs := by
  cases xs with
  | nil => exact ⟨h, trivial⟩
  | cons y ys => exact ⟨closedLine_isLine h.1, h.2⟩

theorem wfChunk_cons_elim_closed {x : List Byte} {xs : List (List Byte)}
    (h : WfChunk (x :: xs)) (hne : xs ≠ []) : ClosedLine x ∧ WfChunk xs := by
  cases xs with
  | nil => exact absurd rfl hne
  | cons y ys => exact ⟨h.1, h.2⟩

theorem wfChunk_append_elim {xs ys : List (List Byte)}
    (h : WfChunk (xs ++ ys)) : WfChunk xs ∧ WfChunk ys := by
  induction xs with
  | nil => exact ⟨trivial, h⟩
  | cons x xs ih =>
    by_cases hys : xs ++ ys = []
    · rcases List.append_eq_nil.mp hys with ⟨rfl, rfl⟩
      exact ⟨h, trivial⟩
    · obtain ⟨hx, hrest⟩ := wfChunk_cons_elim_closed h hys
      obtain ⟨h1, h2⟩ := ih hrest
      exact ⟨wfChunk_cons_of_closed hx h1, h2⟩

theorem wfChunk_splitInclusive (s : List Byte) : WfChunk (splitInclusive s) := by
  induction s with
  | nil => trivial
  | cons b rest ih =>
    by_cases h : b = nlByte
    · simp only [splitInclusive, if_pos h]
      refine wfChunk_cons_of_closed ⟨[], by simp, by simp [h]⟩ ih
    · have h' : nlByte ≠ b := Ne.symm h
      simp only [splitInclusive, if_neg h]
      cases hrest : splitInclusive rest with
      | nil =>
        exact Or.inr ⟨by simp, by simp [h']⟩
      | cons l ls =>
        rw [hrest] at ih
        obtain ⟨hl, hls⟩ := wfChunk_cons_elim ih
        cases ls with
        | nil =>
          rcases hl with ⟨body, hnl, rfl⟩ | ⟨hne, hnl⟩
          · exact Or.inl ⟨b :: body, by simp [hnl, h'], by simp⟩
          · exact Or.inr ⟨by simp, by simp [hnl, h']⟩
        | cons m ms =>
          obtain ⟨hcl, -⟩ := wfChunk_cons_elim_closed ih (by simp)
          obtain ⟨body, hnl, rfl⟩ := hcl
          exact ⟨⟨b :: body, by simp [hnl, h'], by simp⟩, hls⟩

theorem splitInclusive_closed_append {l : List Byte} (t : List Byte) (h : ClosedLine l) :
    splitInclusive (l ++ t) = l :: splitInclusive t := by
  obtain ⟨body, hnl, rfl⟩ := h
  induction body with
  | nil => simp [splitInclusive]
  | cons b bs ih =>
    have hb : b ≠ nlByte := fun hb => hnl (by simp [hb])
    have hbs : nlByte ∉ bs := fun hm => hnl (by simp [hm])
    have ih' := ih hbs
    have harg : (b :: bs ++ [nlByte]) ++ t = b :: (bs ++ [nlByte] ++ t) := by simp
    rw [harg]
    simp only [splitInclusive, if_neg hb]
    rw [ih']
    simp

theorem splitInclusive_plain {l : List Byte} (hne : l ≠ []) (hnl : nlByte ∉ l) :
    splitInclusive l = [l] := by
  induction l with
  | nil => exact absurd rfl hne
  | cons b bs ih =>
    have hb : b ≠ nlByte := fun hb => hnl (by simp [hb])
    have hbs : nlByte ∉ bs := fun hm => hnl (by simp [hm])
    simp only [splitInclusive, if_neg hb]
    cases hbsnil : bs with
    | nil => simp [splitInclusive]
    | cons c cs =>
      rw [← hbsnil, ih (by simp [hbsnil]) hbs]

theorem splitInclusive_flatten {ls : List (List Byte)} (h : WfChunk ls) :
    splitInclusive ls.flatten = ls := by
  induction ls with
  | nil => rfl
  | cons l ls ih =>
    cases ls with
    | nil =>
      rcases h with ⟨body, hnl, rfl⟩ | ⟨hne, hnl⟩
      · simpa using splitInclusive_closed_append (l := body ++ [nlByte]) [] ⟨body, hnl, rfl⟩
      · simpa using splitInclusive_plain hne hnl
    | cons m ms =>
      obtain ⟨hl, hrest⟩ := h
      rw [List.flatten_cons, splitInclusive_closed_append _ hl, ih hrest]

/-- A segment of the external line-level diff: either a block of lines shared
by both sides, or a pair of differing byte ranges (either possibly empty, but
not both). -/
inductive DiffSeg
  | matching (content : List Byte)
  | different (left right : List Byte)
deriving DecidableEq

/-- The bytes a segment contributes to the left input. -/
def DiffSeg.leftBytes : DiffSeg → List Byte
  | .matching c => c
  | .different l _ => l

/-- The bytes a segment contributes to the right input. -/
def DiffSeg.rightBytes : DiffSeg → List Byte
  | .matching c => c
  | .different _ r => r

/-- The lines a segment contributes to the left input. -/
def segLeftLines (s : DiffSeg) : List (List Byte) := splitInclusive s.leftBytes

/-- The lines a segment contributes to the right input. -/
def segRightLines (s : DiffSeg) : List (List Byte) := splitInclusive s.rightBytes

/-- Length of the longest common prefix of two lists of lines. -/
def commonPrefixLen : List (List Byte) → List (List Byte) → Nat
  | a :: as, b :: bs => if a = b then commonPrefixLen as bs + 1 else 0
  | _, _ => 0

theorem commonPrefixLen_le_left : ∀ xs ys : List (List Byte), commonPrefixLen xs ys ≤ xs.length
  | [], _ => by simp [commonPrefixLen]
  | _ :: _, [] => by simp [commonPrefixLen]
  | a :: as, b :: bs => by
    by_cases h : a = b
    · simpa [commonPrefixLen, h] using commonPrefixLen_le_left as bs
    · simp [commonPrefixLen, h]

theorem commonPrefixLen_le_right : ∀ xs ys : List (List Byte), commonPrefixLen xs ys ≤ ys.length
  | [], _ => by simp [commonPrefixLen]
  | _ :: _, [] => by simp [commonPrefixLen]
  | a :: as, b :: bs => by
    by_cases h : a = b
    · simpa [commonPrefixLen, h] using commonPrefixLen_le_right as bs
    · simp [commonPrefixLen, h]

theorem take_commonPrefixLen_eq :
    ∀ xs ys : List (List Byte), xs.take (commonPrefixLen xs ys) = ys.take (commonPrefixLen xs ys)
  | [], ys => by simp [commonPrefixLen]
  | _ :: _, [] => by simp [commonPrefixLen]
  | a :: as, b :: bs => by
    by_cases h : a = b
    · simp [commonPrefixLen, h, take_commonPrefixLen_eq as bs]
    · simp [commonPrefixLen, h]

theorem commonPrefixLen_self : ∀ xs : List (List Byte), commonPrefixLen xs xs = xs.length
  | [] => rfl
  | a :: as => by simp [commonPrefixLen, commonPrefixLen_self as]

/-- Assemble the up-to-three segments of the modelled line diff, dropping the
empty ones so that the result is a proper alternation. -/
def lineDiffSegs (pfx mlv mrv sfxv : List (List Byte)) : List DiffSeg :=
  (if pfx = [] then [] else [DiffSeg.matching pfx.flatten]) ++
  (if mlv = [] ∧ mrv = [] then [] else [DiffSeg.different mlv.flatten mrv.flatten]) ++
  (if sfxv = [] then [] else [DiffSeg.matching sfxv.flatten])

/-- Line-prefix length shared by the two buffers. -/
def linePrefixLen (L R : List Byte) : Nat :=
  commonPrefixLen (splitInclusive L) (splitInclusive R)

/-- Left buffer's lines after the shared prefix. -/
def lineTailL (L R : List Byte) : List (List Byte) :=
  (splitInclusive L).drop (linePrefixLen L R)

/-- Right buffer's lines after the shared prefix. -/
def lineTailR (L R : List Byte) : List (List Byte) :=
  (splitInclusive R).drop (linePrefixLen L R)

/-- Line-suffix length shared by the two tails. -/
def lineSuffixLen (L R : List Byte) : Nat :=
  commonPrefixLen (lineTailL L R).reverse (lineTailR L R).reverse

/-- Modelled from the spec: the external line-level diff
(`jj_lib::diff::Diff::for_tokenizer(&[left, right], &diff::find_line_ranges)`,
which is outside the two source files).  Per the spec it produces an
alternation of `Matching(bytes)` and `Different(left, right)` segments at line
granularity whose projections concatenate to the inputs ("Myers or
equivalent"); the model matches the longest common line prefix and suffix and
treats the remainder as one differing segment. -/
def lineDiff (L R : List Byte) : List DiffSeg :=
  lineDiffSegs
    ((splitInclusive L).take (linePrefixLen L R))
    ((lineTailL L R).reverse.drop (lineSuffixLen L R)).reverse
    ((lineTailR L R).reverse.drop (lineSuffixLen L R)).reverse
    ((lineTailL L R).reverse.take (lineSuffixLen L R)).reverse

theorem segLeft_lineDiffSegs {pfx mlv mrv sfxv : List (List Byte)}
    (hP : WfChunk pfx) (hM : WfChunk mlv) (hS : WfChunk sfxv) :
    ((lineDiffSegs pfx mlv mrv sfxv).map segLeftLines).flatten = pfx ++ mlv ++ sfxv := by
  unfold lineDiffSegs
  split_ifs with h1 h2 h3 <;>
    simp_all [segLeftLines, DiffSeg.leftBytes, splitInclusive_flatten hP,
      splitInclusive_flatten hM, splitInclusive_flatten hS]

theorem segRight_lineDiffSegs {pfx mlv mrv sfxv : List (List Byte)}
    (hP : WfChunk pfx) (hM : WfChunk mrv) (hS : WfChunk sfxv) :
    ((lineDiffSegs pfx mlv mrv sfxv).map segRightLines).flatten = pfx ++ mrv ++ sfxv := by
  unfold lineDiffSegs
  split_ifs with h1 h2 h3 <;>
    simp_all [segRightLines, DiffSeg.rightBytes, splitInclusive_flatten hP,
      splitInclusive_flatten hM, splitInclusive_flatten hS]

theorem lineTailL_decomp (L R : List Byte) :
    ((lineTailL L R).reverse.drop (lineSuffixLen L R)).reverse ++
      ((lineTailL L R).reverse.take (lineSuffixLen L R)).reverse = lineTailL L R := by
  rw [← List.reverse_append, List.take_append_drop, List.reverse_reverse]

theorem lineTailR_decomp (L R : List Byte) :
    ((lineTailR L R).reverse.drop (lineSuffixLen L R)).reverse ++
      ((lineTailR L R).reverse.take (lineSuffixLen L R)).reverse = lineTailR L R := by
  rw [← List.reverse_append, List.take_append_drop, List.reverse_reverse]

theorem lineDiff_suffix_eq (L R : List Byte) :
    ((lineTailL L R).reverse.take (lineSuffixLen L R)).reverse =
      ((lineTailR L R).reverse.take (lineSuffixLen L R)).reverse := by
  rw [lineSuffixLen, take_commonPrefixLen_eq]

theorem lineDiff_prefix_eq (L R : List Byte) :
    (splitInclusive L).take (linePrefixLen L R) =
      (splitInclusive R).take (linePrefixLen L R) := by
  rw [linePrefixLen, take_commonPrefixLen_eq]

theorem lineDiff_left_flatten (L R : List Byte) :
    ((lineDiff L R).map segLeftLines).flatten = splitInclusive L := by
  have hdecomp : (splitInclusive L).take (linePrefixLen L R) ++
      (((lineTailL L R).reverse.drop (lineSuffixLen L R)).reverse ++
        ((lineTailL L R).reverse.take (lineSuffixLen L R)).reverse) = splitInclusive L := by
    rw [lineTailL_decomp, lineTailL, List.take_append_drop]
  have hwf : WfChunk ((splitInclusive L).take (linePrefixLen L R) ++
      (((lineTailL L R).reverse.drop (lineSuffixLen L R)).reverse ++
        ((lineTailL L R).reverse.take (lineSuffixLen L R)).reverse)) := by
    rw [hdecomp]; exact wfChunk_splitInclusive L
  obtain ⟨hP, hrest⟩ := wfChunk_append_elim hwf
  obtain ⟨hM, hS⟩ := wfChunk_append_elim hrest
  rw [lineDiff, segLeft_lineDiffSegs hP hM hS, List.append_assoc, hdecomp]

theorem lineDiff_right_flatten (L R : List Byte) :
    ((lineDiff L R).map segRightLines).flatten = splitInclusive R := by
  have hdecomp : (splitInclusive R).take (linePrefixLen L R) ++
      (((lineTailR L R).reverse.drop (lineSuffixLen L R)).reverse ++
        ((lineTailR L R).reverse.take (lineSuffixLen L R)).reverse) = splitInclusive R := by
    rw [lineTailR_decomp, lineTailR, List.take_append_drop]
  have hwf : WfChunk ((splitInclusive R).take (linePrefixLen L R) ++
      (((lineTailR L R).reverse.drop (lineSuffixLen L R)).reverse ++
        ((lineTailR L R).reverse.take (lineSuffixLen L R)).reverse)) := by
    rw [hdecomp]; exact wfChunk_splitInclusive R
  obtain ⟨hP, hrest⟩ := wfChunk_append_elim hwf
  obtain ⟨hM, hS⟩ := wfChunk_append_elim hrest
  rw [lineDiff, lineDiff_prefix_eq, lineDiff_suffix_eq,
    segRight_lineDiffSegs hP hM hS, List.append_assoc, hdecomp]

theorem lineDiff_self (L : List Byte) :
    lineDiff L L = if splitInclusive L = [] then [] else [DiffSeg.matching L] := by
  have hp : linePrefixLen L L = (splitInclusive L).length := by
    rw [linePrefixLen, commonPrefixLen_self]
  have htail : lineTailL L L = [] := by
    rw [lineTailL, hp, List.drop_length]
  have htailR : lineTailR L L = [] := by
    rw [lineTailR, hp, List.drop_length]
  rw [lineDiff, hp, htail, htailR, List.take_length]
  by_cases h : splitInclusive L = [] <;>
    simp [lineDiffSegs, h, flatten_splitInclusive]

/-- Embedding of `DiffLineType` from `cli/src/diff_util.rs`. -/
inductive DiffLineType
  | context
  | removed
  | added
deriving DecidableEq

/-- Embedding of `UnifiedDiffHunk`: the Rust `Range<usize>` fields
`left_line_range` and `right_line_range` are expanded into their `start` and
`end` components. -/
structure UnifiedDiffHunk where
  leftStart : Nat
  leftEnd : Nat
  rightStart : Nat
  rightEnd : Nat
  lines : List (DiffLineType × List Byte)
deriving DecidableEq

/-- The loop state of `unified_diff_hunks`: the finished hunks, the hunk being
built, and the `show_context_after` flag. -/
structure UDState where
  hunks : List UnifiedDiffHunk
  current : UnifiedDiffHunk
  showContextAfter : Bool

/-- Initial state of `unified_diff_hunks`: no hunks, current hunk with ranges
`1..1` and no lines, `show_context_after = false`. -/
def initialUDState : UDState :=
  { hunks := [], current := ⟨1, 1, 1, 1, []⟩, showContextAfter := false }

/-- Append context lines to the current hunk, advancing both range ends by
the number of appended lines (the Rust code advances by `num_after_lines`
resp. `num_before_lines`, which equal the length of the line block taken). -/
def pushContext (cur : UnifiedDiffHunk) (ls : List (List Byte)) : UnifiedDiffHunk :=
  { cur with
    leftEnd := cur.leftEnd + ls.length
    rightEnd := cur.rightEnd + ls.length
    lines := cur.lines ++ ls.map (fun l => (DiffLineType.context, l)) }

/-- Append removed lines to the current hunk, advancing the left range end. -/
def pushRemoved (cur : UnifiedDiffHunk) (ls : List (List Byte)) : UnifiedDiffHunk :=
  { cur with
    leftEnd := cur.leftEnd + ls.length
    lines := cur.lines ++ ls.map (fun l => (DiffLineType.removed, l)) }

/-- Append added lines to the current hunk, advancing the right range end. -/
def pushAdded (cur : UnifiedDiffHunk) (ls : List (List Byte)) : UnifiedDiffHunk :=
  { cur with
    rightEnd := cur.rightEnd + ls.length
    lines := cur.lines ++ ls.map (fun l => (DiffLineType.added, l)) }

/-- A new empty hunk whose ranges start (and end) at the given positions. -/
def freshHunk (leftPos rightPos : Nat) : UnifiedDiffHunk :=
  { leftStart := leftPos, leftEnd := leftPos, rightStart := rightPos, rightEnd := rightPos,
    lines := [] }

/-- Embedding of one iteration of the `for hunk in diff.hunks()` loop of
`unified_diff_hunks` in `cli/src/diff_util.rs`. -/
def processSeg (numContextLines : Nat) (st : UDState) : DiffSeg → UDState
  | .matching content =>
    let lines := splitInclusive content
    let numAfterLines := lines.length.min (if st.showContextAfter then numContextLines else 0)
    let cur1 := pushContext st.current (lines.take numAfterLines)
    let numSkipLines := lines.length - numAfterLines - numContextLines
    let hunks1 :=
      if 0 < numSkipLines then
        if cur1.lines.isEmpty then st.hunks else st.hunks ++ [cur1]
      else st.hunks
    let cur2 :=
      if 0 < numSkipLines then
        freshHunk (cur1.leftEnd + numSkipLines) (cur1.rightEnd + numSkipLines)
      else cur1
    let cur3 := pushContext cur2 (lines.drop (numAfterLines + numSkipLines))
    { hunks := hunks1, current := cur3, showContextAfter := st.showContextAfter }
  | .different leftC rightC =>
    let leftLines := splitInclusive leftC
    let rightLines := splitInclusive rightC
    let cur1 := if leftLines.isEmpty then st.current else pushRemoved st.current leftLines
    let cur2 := if rightLines.isEmpty then cur1 else pushAdded cur1 rightLines
    { hunks := st.hunks, current := cur2, showContextAfter := true }

/-- Embedding of the epilogue of `unified_diff_hunks`: the final current hunk
is kept only if it contains a non-context line. -/
def finishUD (st : UDState) : List UnifiedDiffHunk :=
  if st.current.lines.all (fun tl => tl.1 = DiffLineType.context) then st.hunks
  else st.hunks ++ [st.current]

/-- The hunk builder run on an explicit segment sequence. -/
def unifiedDiffHunksFromSegs (segs : List DiffSeg) (numContextLines : Nat) :
    List UnifiedDiffHunk :=
  finishUD (segs.foldl (processSeg numContextLines) initialUDState)

/-- Embedding of `unified_diff_hunks(left_content, right_content,
num_context_lines)` from `cli/src/diff_util.rs`, with the external line diff
instantiated by the spec-modelled `lineDiff`. -/
def unified_diff_hunks (leftContent rightContent : List Byte) (numContextLines : Nat) :
    List UnifiedDiffHunk :=
  unifiedDiffHunksFromSegs (lineDiff leftContent rightContent) numContextLines

/-- The old-side lines of a hunk line list: the `Context` and `Removed`
lines, in order. -/
def oldOf (lines : List (DiffLineType × List Byte)) : List (List Byte) :=
  (lines.filter (fun tl => tl.1 ≠ DiffLineType.added)).map Prod.snd

/-- The new-side lines of a hunk line list: the `Context` and `Added` lines,
in order. -/
def newOf (lines : List (DiffLineType × List Byte)) : List (List Byte) :=
  (lines.filter (fun tl => tl.1 ≠ DiffLineType.removed)).map Prod.snd

/-- The `Context` and `Removed` lines of a hunk. -/
def hunkOldLines (h : UnifiedDiffHunk) : List (List Byte) := oldOf h.lines

/-- The `Context` and `Added` lines of a hunk. -/
def hunkNewLines (h : UnifiedDiffHunk) : List (List Byte) := newOf h.lines

theorem oldOf_append (l1 l2 : List (DiffLineType × List Byte)) :
    oldOf (l1 ++ l2) = oldOf l1 ++ oldOf l2 := by
  simp [oldOf, List.filter_append]

theorem newOf_append (l1 l2 : List (DiffLineType × List Byte)) :
    newOf (l1 ++ l2) = newOf l1 ++ newOf l2 := by
  simp [newOf, List.filter_append]

theorem oldOf_context (ls : List (List Byte)) :
    oldOf (ls.map (fun l => (DiffLineType.context, l))) = ls := by
  induction ls with
  | nil => rfl
  | cons l ls ih => simpa [oldOf, List.filter] using ih

theorem newOf_context (ls : List (List Byte)) :
    newOf (ls.map (fun l => (DiffLineType.context, l))) = ls := by
  induction ls with
  | nil => rfl
  | cons l ls ih => simpa [newOf, List.filter] using ih

theorem oldOf_removed (ls : List (List Byte)) :
    oldOf (ls.map (fun l => (DiffLineType.removed, l))) = ls := by
  induction ls with
  | nil => rfl
  | cons l ls ih => simpa [oldOf, List.filter] using ih

theorem newOf_removed (ls : List (List Byte)) :
    newOf (ls.map (fun l => (DiffLineType.removed, l))) = [] := by
  induction ls with
  | nil => rfl
  | cons l ls _ => simp [newOf, List.filter]

theorem oldOf_added (ls : List (List Byte)) :
    oldOf (ls.map (fun l => (DiffLineType.added, l))) = [] := by
  induction ls with
  | nil => rfl
  | cons l ls _ => simp [oldOf, List.filter]

theorem newOf_added (ls : List (List Byte)) :
    newOf (ls.map (fun l => (DiffLineType.added, l))) = ls := by
  induction ls with
  | nil => rfl
  | cons l ls ih => simpa [newOf, List.filter] using ih

theorem oldOf_eq_newOf_of_all_context {lines : List (DiffLineType × List Byte)}
    (h : lines.all (fun tl => tl.1 = DiffLineType.context)) : oldOf lines = newOf lines := by
  induction lines with
  | nil => rfl
  | cons tl tls ih =>
    simp only [List.all_cons, Bool.and_eq_true, decide_eq_true_eq] at h
    have ih' := ih h.2
    simp [oldOf, newOf, List.filter, h.1] at ih' ⊢
    simpa [oldOf, newOf] using ih'

theorem pushRemoved_nil (cur : UnifiedDiffHunk) : pushRemoved cur [] = cur := by
  cases cur; simp [pushRemoved]

theorem pushAdded_nil (cur : UnifiedDiffHunk) : pushAdded cur [] = cur := by
  cases cur; simp [pushAdded]

/-- Placement of a hunk list inside a pair of line buffers: starting at the
given 1-based positions, the buffers decompose into a shared gap, the hunk's
old/new lines, and a remainder covered by the remaining hunks, with the range
fields recording exactly these positions. -/
def Covers : Nat → Nat → List UnifiedDiffHunk → List (List Byte) → List (List Byte) → Prop
  | _, _, [], l, r => l = r
  | posL, posR, h :: hs, l, r =>
    ∃ g tl tr,
      l = g ++ hunkOldLines h ++ tl ∧
      r = g ++ hunkNewLines h ++ tr ∧
      h.leftStart = posL + g.length ∧
      h.rightStart = posR + g.length ∧
      h.leftEnd = h.leftStart + (hunkOldLines h).length ∧
      h.rightEnd = h.rightStart + (hunkNewLines h).length ∧
      Covers h.leftEnd h.rightEnd hs tl tr

/-- Replay a hunk list onto a line buffer: at each hunk's left line range, the
old (context and removed) lines are replaced by the new (context and added)
lines; lines outside the ranges are kept. -/
def applyHunksFrom : Nat → List UnifiedDiffHunk → List (List Byte) → List (List Byte)
  | _, [], ls => ls
  | pos, h :: hs, ls =>
    ls.take (h.leftStart - pos) ++ hunkNewLines h ++
      applyHunksFrom h.leftEnd hs ((ls.drop (h.leftStart - pos)).drop (h.leftEnd - h.leftStart))

/-- Replay a hunk list onto the left byte buffer. -/
def applyHunks (hunks : List UnifiedDiffHunk) (left : List Byte) : List Byte :=
  (applyHunksFrom 1 hunks (splitInclusive left)).flatten

theorem covers_apply :
    ∀ (hs : List UnifiedDiffHunk) (posL posR : Nat) (l r : List (List Byte)),
      Covers posL posR hs l r → applyHunksFrom posL hs l = r := by
  intro hs
  induction hs with
  | nil =>
    intro posL posR l r h
    simpa [applyHunksFrom, Covers] using h
  | cons h hs ih =>
    intro posL posR l r hc
    obtain ⟨g, tl, tr, hl, hr, hls, hrs, hle, hre, hrest⟩ := hc
    subst hl
    subst hr
    have hgap : h.leftStart - posL = g.length := by omega
    have hlen : h.leftEnd - h.leftStart = (hunkOldLines h).length := by omega
    rw [applyHunksFrom, hgap, hlen,
      show g ++ hunkOldLines h ++ tl = g ++ (hunkOldLines h ++ tl) by simp,
      List.take_left, List.drop_left, List.drop_left, ih _ _ _ _ hrest]

theorem covers_mem :
    ∀ (hs : List UnifiedDiffHunk) (posL posR : Nat) (l r : List (List Byte)),
      Covers posL posR hs l r → ∀ h ∈ hs,
        h.leftEnd = h.leftStart + (hunkOldLines h).length ∧
        h.rightEnd = h.rightStart + (hunkNewLines h).length := by
  intro hs
  induction hs with
  | nil => intro _ _ _ _ _ h hmem; exact absurd hmem (by simp)
  | cons h0 hs ih =>
    intro posL posR l r hc h hmem
    obtain ⟨g, tl, tr, _, _, _, _, hle, hre, hrest⟩ := hc
    rcases List.mem_cons.mp hmem with rfl | hmem'
    · exact ⟨hle, hre⟩
    · exact ih _ _ _ _ hrest h hmem'

theorem covers_snoc :
    ∀ (hs : List UnifiedDiffHunk) (posL posR : Nat) (a b : List (List Byte))
      (h : UnifiedDiffHunk),
      (∀ u, Covers posL posR hs (a ++ u) (b ++ u)) →
      h.leftStart = posL + a.length →
      h.rightStart = posR + b.length →
      h.leftEnd = h.leftStart + (hunkOldLines h).length →
      h.rightEnd = h.rightStart + (hunkNewLines h).length →
      ∀ w, Covers posL posR (hs ++ [h])
        (a ++ (hunkOldLines h ++ w)) (b ++ (hunkNewLines h ++ w)) := by
  intro hs
  induction hs with
  | nil =>
    intro posL posR a b h hcov hlsh hrsh hleh hreh w
    have hab : a = b := by
      have := hcov []
      simpa [Covers] using this
    subst hab
    refine ⟨a, w, w, by simp, by simp, by omega, by omega, hleh, hreh, rfl⟩
  | cons h' hs ih =>
    intro posL posR a b h hcov hlsh hrsh hleh hreh w
    obtain ⟨g', tl, tr, ha, hb, hls', hrs', hle', hre', hrest0⟩ := by
      simpa using hcov []
    have halen : a.length = g'.length + ((hunkOldLines h').length + tl.length) := by
      have := congrArg List.length ha
      simpa using this
    have hblen : b.length = g'.length + ((hunkNewLines h').length + tr.length) := by
      have := congrArg List.length hb
      simpa using this
    have hrec : ∀ u, Covers h'.leftEnd h'.rightEnd hs (tl ++ u) (tr ++ u) := by
      intro u
      obtain ⟨gu, tlu, tru, hau, hbu, hlsu, hrsu, hleu, hreu, hrestu⟩ := hcov u
      have hglen : gu.length = g'.length := by omega
      have hau' : gu ++ (hunkOldLines h' ++ tlu) = g' ++ (hunkOldLines h' ++ (tl ++ u)) := by
        rw [← List.append_assoc, ← List.append_assoc, ← hau, ha]
        simp
      obtain ⟨rfl, hau2⟩ := List.append_inj hau' hglen
      have htlu : tlu = tl ++ u := by
        have := List.append_inj hau2 rfl
        exact this.2
      have hbu' : gu ++ (hunkNewLines h' ++ tru) = gu ++ (hunkNewLines h' ++ (tr ++ u)) := by
        rw [← List.append_assoc, ← hbu, hb]
        simp
      have htru : tru = tr ++ u := by
        have h1 := List.append_inj hbu' rfl
        have h2 := List.append_inj h1.2 rfl
        exact h2.2
      rw [htlu, htru] at hrestu
      exact hrestu
    have hih := ih h'.leftEnd h'.rightEnd tl tr h hrec (by omega) (by omega) hleh hreh w
    refine ⟨g', tl ++ (hunkOldLines h ++ w), tr ++ (hunkNewLines h ++ w),
      ?_, ?_, hls', hrs', hle', hre', hih⟩
    · rw [ha]; simp
    · rw [hb]; simp

/-- Loop invariant of `unified_diff_hunks`: the consumed left/right lines
decompose into a region covered by the finished hunks (with equal residue),
followed by the current hunk's old/new lines, with the current hunk's range
fields tracking the consumed positions. -/
def StInv (hs : List UnifiedDiffHunk) (cur : UnifiedDiffHunk)
    (dL dR : List (List Byte)) : Prop :=
  ∃ a b,
    dL = a ++ hunkOldLines cur ∧
    dR = b ++ hunkNewLines cur ∧
    cur.leftStart = a.length + 1 ∧
    cur.rightStart = b.length + 1 ∧
    cur.leftEnd = dL.length + 1 ∧
    cur.rightEnd = dR.length + 1 ∧
    ∀ u, Covers 1 1 hs (a ++ u) (b ++ u)

/-- The loop invariant read off a loop state. -/
def StInvState (st : UDState) (dL dR : List (List Byte)) : Prop :=
  StInv st.hunks st.current dL dR

theorem stInv_init : StInvState initialUDState [] [] := by
  refine ⟨[], [], by simp [initialUDState, hunkOldLines, oldOf],
    by simp [initialUDState, hunkNewLines, newOf], by simp [initialUDState],
    by simp [initialUDState], by simp [initialUDState], by simp [initialUDState],
    fun u => by simp [initialUDState, Covers]⟩

theorem stInv_pushContext {hs : List UnifiedDiffHunk} {cur : UnifiedDiffHunk}
    {dL dR : List (List Byte)} (h : StInv hs cur dL dR) (ls : List (List Byte)) :
    StInv hs (pushContext cur ls) (dL ++ ls) (dR ++ ls) := by
  obtain ⟨a, b, hdL, hdR, hls, hrs, hle, hre, hcov⟩ := h
  refine ⟨a, b, ?_, ?_, ?_, ?_, ?_, ?_, hcov⟩
  · rw [hdL]
    simp [pushContext, hunkOldLines, oldOf_append, oldOf_context]
  · rw [hdR]
    simp [pushContext, hunkNewLines, newOf_append, newOf_context]
  · simpa [pushContext] using hls
  · simpa [pushContext] using hrs
  · simp only [pushContext, List.length_append]
    omega
  · simp only [pushContext, List.length_append]
    omega

theorem stInv_pushRemoved {hs : List UnifiedDiffHunk} {cur : UnifiedDiffHunk}
    {dL dR : List (List Byte)} (h : StInv hs cur dL dR) (ls : List (List Byte)) :
    StInv hs (pushRemoved cur ls) (dL ++ ls) dR := by
  obtain ⟨a, b, hdL, hdR, hls, hrs, hle, hre, hcov⟩ := h
  refine ⟨a, b, ?_, ?_, ?_, ?_, ?_, ?_, hcov⟩
  · rw [hdL]
    simp [pushRemoved, hunkOldLines, oldOf_append, oldOf_removed]
  · rw [hdR]
    simp [pushRemoved, hunkNewLines, newOf_append, newOf_removed]
  · simpa [pushRemoved] using hls
  · simpa [pushRemoved] using hrs
  · simp only [pushRemoved, List.length_append]
    omega
  · simpa [pushRemoved] using hre

theorem stInv_pushAdded {hs : List UnifiedDiffHunk} {cur : UnifiedDiffHunk}
    {dL dR : List (List Byte)} (h : StInv hs cur dL dR) (ls : List (List Byte)) :
    StInv hs (pushAdded cur ls) dL (dR ++ ls) := by
  obtain ⟨a, b, hdL, hdR, hls, hrs, hle, hre, hcov⟩ := h
  refine ⟨a, b, ?_, ?_, ?_, ?_, ?_, ?_, hcov⟩
  · rw [hdL]
    simp [pushAdded, hunkOldLines, oldOf_append, oldOf_added]
  · rw [hdR]
    simp [pushAdded, hunkNewLines, newOf_append, newOf_added]
  · simpa [pushAdded] using hls
  · simpa [pushAdded] using hrs
  · simpa [pushAdded] using hle
  · simp only [pushAdded, List.length_append]
    omega

theorem stInv_skip {hs : List UnifiedDiffHunk} {cur : UnifiedDiffHunk}
    {dL dR : List (List Byte)} (h : StInv hs cur dL dR) (s : List (List Byte)) :
    StInv (if cur.lines.isEmpty then hs else hs ++ [cur])
      (freshHunk (cur.leftEnd + s.length) (cur.rightEnd + s.length))
      (dL ++ s) (dR ++ s) := by
  obtain ⟨a, b, hdL, hdR, hls, hrs, hle, hre, hcov⟩ := h
  have halen : dL.length = a.length + (hunkOldLines cur).length := by
    rw [hdL]; simp
  have hblen : dR.length = b.length + (hunkNewLines cur).length := by
    rw [hdR]; simp
  refine ⟨dL ++ s, dR ++ s, ?_, ?_, ?_, ?_, ?_, ?_, ?_⟩
  · simp [freshHunk, hunkOldLines, oldOf]
  · simp [freshHunk, hunkNewLines, newOf]
  · simp only [freshHunk, List.length_append]
    omega
  · simp only [freshHunk, List.length_append]
    omega
  · simp only [freshHunk, List.length_append]
    omega
  · simp only [freshHunk, List.length_append]
    omega
  · intro u
    by_cases hemp : cur.lines.isEmpty
    · have hnil : cur.lines = [] := List.isEmpty_iff.mp hemp
      have hold : hunkOldLines cur = [] := by simp [hunkOldLines, oldOf, hnil]
      have hnew : hunkNewLines cur = [] := by simp [hunkNewLines, newOf, hnil]
      rw [if_pos hemp]
      have := hcov (s ++ u)
      rw [hdL, hdR, hold, hnew]
      simpa using this
    · rw [if_neg hemp]
      have := covers_snoc hs 1 1 a b cur hcov (by omega) (by omega) (by omega) (by omega)
        (s ++ u)
      rw [hdL, hdR]
      simpa using this

theorem stInv_step (C : Nat) (st : UDState) (seg : DiffSeg) {dL dR : List (List Byte)}
    (h : StInvState st dL dR) :
    StInvState (processSeg C st seg) (dL ++ segLeftLines seg) (dR ++ segRightLines seg) := by
  obtain ⟨hs, cur, flag⟩ := st
  have h' : StInv hs cur dL dR := h
  cases seg with
  | different lc rc =>
    simp only [processSeg, segLeftLines, segRightLines, DiffSeg.leftBytes, DiffSeg.rightBytes]
    by_cases hL : (splitInclusive lc).isEmpty <;> by_cases hR : (splitInclusive rc).isEmpty
    · have hLnil : splitInclusive lc = [] := List.isEmpty_iff.mp hL
      have hRnil : splitInclusive rc = [] := List.isEmpty_iff.mp hR
      simp only [hL, hR, if_pos rfl, hLnil, hRnil, List.append_nil]
      exact h'
    · have hLnil : splitInclusive lc = [] := List.isEmpty_iff.mp hL
      simp only [hL, hR, if_pos rfl, Bool.false_eq_true, if_neg, hLnil, List.append_nil]
      exact stInv_pushAdded h' _
    · have hRnil : splitInclusive rc = [] := List.isEmpty_iff.mp hR
      simp only [hL, hR, if_pos rfl, Bool.false_eq_true, if_neg, hRnil, List.append_nil]
      exact stInv_pushRemoved h' _
    · simp only [hL, hR, Bool.false_eq_true, if_neg]
      exact stInv_pushAdded (stInv_pushRemoved h' _) _
  | matching c =>
    simp only [processSeg, segLeftLines, segRightLines, DiffSeg.leftBytes, DiffSeg.rightBytes]
    set ls := splitInclusive c with hls0
    set na := ls.length.min (if flag then C else 0) with hna0
    set nsk := ls.length - na - C with hnsk0
    have hna_le : na ≤ ls.length := Nat.min_le_left _ _
    have hnsk_le : nsk ≤ ls.length - na := by omega
    by_cases hskip : 0 < nsk
    · have hS_len : ((ls.drop na).take nsk).length = nsk := by
        simp only [List.length_take, List.length_drop]
        omega
      have h1 := stInv_pushContext h' (ls.take na)
      have h2 := stInv_skip h1 ((ls.drop na).take nsk)
      rw [hS_len] at h2
      have h3 := stInv_pushContext h2 (ls.drop (na + nsk))
      have hdecomp : ls.take na ++ ((ls.drop na).take nsk ++ ls.drop (na + nsk)) = ls := by
        have hdd : ls.drop (na + nsk) = (ls.drop na).drop nsk := by
          rw [List.drop_drop, Nat.add_comm]
        rw [hdd, List.take_append_drop, List.take_append_drop]
      simp only [if_pos hskip]
      simp only [List.append_assoc] at h3
      rw [hdecomp] at h3
      exact h3
    · have hz : nsk = 0 := by omega
      have h1 := stInv_pushContext h' (ls.take na)
      have h3 := stInv_pushContext h1 (ls.drop (na + nsk))
      simp only [if_neg hskip]
      rw [hz, Nat.add_zero] at h3 ⊢
      simp only [List.append_assoc] at h3
      rw [List.take_append_drop] at h3
      exact h3

theorem stInv_fold (C : Nat) :
    ∀ (segs : List DiffSeg) (st : UDState) (dL dR : List (List Byte)),
      StInvState st dL dR →
      StInvState (segs.foldl (processSeg C) st)
        (dL ++ (segs.map segLeftLines).flatten) (dR ++ (segs.map segRightLines).flatten) := by
  intro segs
  induction segs with
  | nil =>
    intro st dL dR h
    simpa using h
  | cons s ss ih =>
    intro st dL dR h
    have h1 := stInv_step C st s h
    have h2 := ih _ _ _ h1
    simpa [List.append_assoc] using h2

theorem finishUD_covers {st : UDState} {dL dR : List (List Byte)}
    (h : StInvState st dL dR) : Covers 1 1 (finishUD st) dL dR := by
  obtain ⟨a, b, hdL, hdR, hls, hrs, hle, hre, hcov⟩ := h
  have halen : dL.length = a.length + (hunkOldLines st.current).length := by
    rw [hdL]; simp
  have hblen : dR.length = b.length + (hunkNewLines st.current).length := by
    rw [hdR]; simp
  unfold finishUD
  by_cases hall : st.current.lines.all (fun tl => tl.1 = DiffLineType.context) = true
  · rw [if_pos hall]
    have heq : hunkOldLines st.current = hunkNewLines st.current :=
      oldOf_eq_newOf_of_all_context hall
    rw [hdL, hdR, ← heq]
    exact hcov _
  · rw [if_neg hall]
    have := covers_snoc st.hunks 1 1 a b st.current hcov (by omega) (by omega) (by omega)
      (by omega) []
    rw [hdL, hdR]
    simpa using this

theorem covers_fromSegs (segs : List DiffSeg) (C : Nat) :
    Covers 1 1 (unifiedDiffHunksFromSegs segs C)
      ((segs.map segLeftLines).flatten) ((segs.map segRightLines).flatten) := by
  have h := stInv_fold C segs initialUDState [] [] stInv_init
  exact finishUD_covers (by simpa using h)

theorem covers_unified_diff_hunks (L R : List Byte) (C : Nat) :
    Covers 1 1 (unified_diff_hunks L R C) (splitInclusive L) (splitInclusive R) := by
  have := covers_fromSegs (lineDiff L R) C
  rwa [lineDiff_left_flatten, lineDiff_right_flatten] at this

/-- C1: for every pair of byte buffers L and R and every context count,
applying the hunk sequence produced by `unified_diff_hunks` to L — replacing,
at each hunk's 1-based left line range, its Context and Removed lines with
its Context and Added lines — reconstructs R exactly. -/
theorem unified_diff_hunks_roundtrip (L R : List Byte) (C : Nat) :
    applyHunks (unified_diff_hunks L R C) L = R := by
  rw [applyHunks, covers_apply _ _ _ _ _ (covers_unified_diff_hunks L R C),
    flatten_splitInclusive]

/-- C8: for every byte buffer L and every context count,
`unified_diff_hunks L L C` returns no hunks. -/
theorem unified_diff_hunks_self (L : List Byte) (C : Nat) :
    unified_diff_hunks L L C = [] := by
  rw [unified_diff_hunks, lineDiff_self]
  by_cases h : splitInclusive L = []
  · rw [if_pos h]
    rfl
  · rw [if_neg h]
    show finishUD (processSeg C initialUDState (DiffSeg.matching L)) = []
    simp only [processSeg, initialUDState, pushContext, freshHunk, finishUD]
    simp only [Nat.min_def]
    split_ifs <;>
      simp_all [List.all_eq_true, List.mem_map, ← List.map_drop]

theorem countP_old (lines : List (DiffLineType × List Byte)) :
    (lines.countP fun tl => !decide (tl.1 = DiffLineType.added)) =
      (lines.countP fun tl => tl.1 = DiffLineType.context) +
        (lines.countP fun tl => tl.1 = DiffLineType.removed) := by
  induction lines with
  | nil => rfl
  | cons tl tls ih =>
    obtain ⟨t, l⟩ := tl
    cases t <;> simp [List.countP_cons, ih] <;> omega

theorem countP_new (lines : List (DiffLineType × List Byte)) :
    (lines.countP fun tl => !decide (tl.1 = DiffLineType.removed)) =
      (lines.countP fun tl => tl.1 = DiffLineType.context) +
        (lines.countP fun tl => tl.1 = DiffLineType.added) := by
  induction lines with
  | nil => rfl
  | cons tl tls ih =>
    obtain ⟨t, l⟩ := tl
    cases t <;> simp [List.countP_cons, ih] <;> omega

theorem length_oldOf (lines : List (DiffLineType × List Byte)) :
    (oldOf lines).length =
      (lines.countP fun tl => tl.1 = DiffLineType.context) +
        (lines.countP fun tl => tl.1 = DiffLineType.removed) := by
  rw [oldOf, List.length_map, ← List.countP_eq_length_filter]
  simp only [decide_not]
  rw [countP_old]

theorem length_newOf (lines : List (DiffLineType × List Byte)) :
    (newOf lines).length =
      (lines.countP fun tl => tl.1 = DiffLineType.context) +
        (lines.countP fun tl => tl.1 = DiffLineType.added) := by
  rw [newOf, List.length_map, ← List.countP_eq_length_filter]
  simp only [decide_not]
  rw [countP_new]

/-- C10: every hunk produced by `unified_diff_hunks` has a left line range
whose length is the number of its Context plus Removed lines, and a right
line range whose length is the number of its Context plus Added lines. -/
theorem unified_diff_hunks_line_ranges (L R : List Byte) (C : Nat) (h : UnifiedDiffHunk)
    (hmem : h ∈ unified_diff_hunks L R C) :
    h.leftEnd - h.leftStart =
        (h.lines.countP fun tl => tl.1 = DiffLineType.context) +
          (h.lines.countP fun tl => tl.1 = DiffLineType.removed) ∧
      h.rightEnd - h.rightStart =
        (h.lines.countP fun tl => tl.1 = DiffLineType.context) +
          (h.lines.countP fun tl => tl.1 = DiffLineType.added) := by
  obtain ⟨hle, hre⟩ := covers_mem _ _ _ _ _ (covers_unified_diff_hunks L R C) h hmem
  simp only [hunkOldLines, hunkNewLines] at hle hre
  constructor
  · calc h.leftEnd - h.leftStart = (oldOf h.lines).length := by omega
    _ = _ := length_oldOf _
  · calc h.rightEnd - h.rightStart = (newOf h.lines).length := by omega
    _ = _ := length_newOf _

/-- Witness for C10: the single hunk of the diff from an empty buffer to
`"hi"` satisfies the line-range invariant. -/
theorem unified_diff_hunks_line_ranges_witness :
    (⟨1, 1, 1, 2, [(DiffLineType.added, [104, 105])]⟩ : UnifiedDiffHunk) ∈
        unified_diff_hunks [] [104, 105] 3 ∧
      ((⟨1, 1, 1, 2, [(DiffLineType.added, [104, 105])]⟩ : UnifiedDiffHunk).leftEnd -
            (⟨1, 1, 1, 2, [(DiffLineType.added, [104, 105])]⟩ : UnifiedDiffHunk).leftStart =
          ((⟨1, 1, 1, 2, [(DiffLineType.added, [104, 105])]⟩ : UnifiedDiffHunk).lines.countP
              fun tl => tl.1 = DiffLineType.context) +
            ((⟨1, 1, 1, 2, [(DiffLineType.added, [104, 105])]⟩ : UnifiedDiffHunk).lines.countP
              fun tl => tl.1 = DiffLineType.removed) ∧
        (⟨1, 1, 1, 2, [(DiffLineType.added, [104, 105])]⟩ : UnifiedDiffHunk).rightEnd -
            (⟨1, 1, 1, 2, [(DiffLineType.added, [104, 105])]⟩ : UnifiedDiffHunk).rightStart =
          ((⟨1, 1, 1, 2, [(DiffLineType.added, [104, 105])]⟩ : UnifiedDiffHunk).lines.countP
              fun tl => tl.1 = DiffLineType.context) +
            ((⟨1, 1, 1, 2, [(DiffLineType.added, [104, 105])]⟩ : UnifiedDiffHunk).lines.countP
              fun tl => tl.1 = DiffLineType.added)) :=
  ⟨by decide, unified_diff_hunks_line_ranges [] [104, 105] 3 _ (by decide)⟩

/-- Bytes of an ASCII string literal. -/
def ascii (s : String) : List Byte := s.data.map Char.toNat

/-- Decimal digits of a natural number, with fuel for structural recursion. -/
def natDigitsAux : Nat → Nat → List Byte
  | 0, _ => []
  | fuel + 1, n => if n < 10 then [48 + n] else natDigitsAux fuel (n / 10) ++ [48 + n % 10]

/-- ASCII decimal rendering of a natural number. -/
def natAscii (n : Nat) : List Byte := natDigitsAux (n + 1) n

/-- Embedding of Rust `content.ends_with(b"\n")`. -/
def endsWithNl (content : List Byte) : Bool := content.getLast? = some nlByte

/-- Rendering of one hunk line by `show_unified_diff_hunks` in
`cli/src/diff_util.rs`: the type prefix, the raw line bytes, and the
`\ No newline at end of file` marker when the line lacks a newline.  The
formatter labels (`context`, `removed`, `added`) carry no bytes. -/
def renderHunkLine : DiffLineType × List Byte → List Byte
  | (DiffLineType.context, content) =>
    ascii " " ++ content ++
      (if endsWithNl content then [] else ascii "\n\\ No newline at end of file\n")
  | (DiffLineType.removed, content) =>
    ascii "-" ++ content ++
      (if endsWithNl content then [] else ascii "\n\\ No newline at end of file\n")
  | (DiffLineType.added, content) =>
    ascii "+" ++ content ++
      (if endsWithNl content then [] else ascii "\n\\ No newline at end of file\n")

/-- Rendering of one hunk by `show_unified_diff_hunks`: the
`@@ -<start>,<len> +<start>,<len> @@` header (`Range::len` is `end - start`)
followed by the lines. -/
def renderHunk (h : UnifiedDiffHunk) : List Byte :=
  ascii "@@ -" ++ natAscii h.leftStart ++ ascii "," ++ natAscii (h.leftEnd - h.leftStart) ++
    ascii " +" ++ natAscii h.rightStart ++ ascii "," ++ natAscii (h.rightEnd - h.rightStart) ++
    ascii " @@\n" ++ (h.lines.map renderHunkLine).flatten

/-- Embedding of `show_unified_diff_hunks(formatter, left, right)`: the byte
stream written to the formatter (labels stripped), with the fixed context
count 3. -/
def show_unified_diff_hunks_bytes (leftContent rightContent : List Byte) : List Byte :=
  ((unified_diff_hunks leftContent rightContent 3).map renderHunk).flatten

/-- Embedding of `GitDiffPart` from `cli/src/diff_util.rs`. -/
structure GitDiffPart where
  mode : List Byte
  hash : List Byte
  content : List Byte
deriving DecidableEq

/-- The `git_diff_part` computation for a resolved regular file: mode from
the executable bit, hash the first 10 hex characters of the content id, and
the file bytes read from the store (the store read itself is external). -/
def git_diff_part_file (idHex : List Byte) (executable : Bool) (content : List Byte) :
    GitDiffPart :=
  { mode := if executable then ascii "100755" else ascii "100644"
    hash := idHex.take 10
    content := content }

/-- Embedding of the `left_value.is_absent()` (added file) branch of
`show_git_diff` in `cli/src/diff_util.rs`: one byte group per `writeln!`,
followed by the unified hunks of `(&[], right.content)`. -/
def show_git_diff_added (pathString : List Byte) (part : GitDiffPart) : List Byte :=
  (ascii "diff --git a/" ++ pathString ++ ascii " b/" ++ pathString ++ ascii "\n") ++
  (ascii "new file mode " ++ part.mode ++ ascii "\n") ++
  (ascii "index 0000000000.." ++ part.hash ++ ascii "\n") ++
  ascii "--- /dev/null\n" ++
  (ascii "+++ b/" ++ pathString ++ ascii "\n") ++
  show_unified_diff_hunks_bytes [] part.content

/-- C4 counterexample: adding `x.txt` with bytes `"hi"` does not produce the
output claimed (hunk header `@@ -0,0 +1,1 @@`); the left range of an added
file starts at line 1, so the code emits `@@ -1,0 +1,1 @@`. -/
theorem show_git_diff_added_claim_cex :
    show_git_diff_added (ascii "x.txt")
        (git_diff_part_file (ascii "1234567890abcdef1234") false (ascii "hi")) ≠
      ascii "diff --git a/x.txt b/x.txt\n" ++ ascii "new file mode 100644\n" ++
        (ascii "index 0000000000.." ++ (ascii "1234567890abcdef1234").take 10 ++ ascii "\n") ++
        ascii "--- /dev/null\n" ++ ascii "+++ b/x.txt\n" ++
        (ascii "@@ -0,0 +1,1 @@\n" ++ ascii "+hi" ++
          ascii "\n\\ No newline at end of file\n") := by
  decide

/-- C4 as amended: in git format, adding `x.txt` with bytes `"hi"` (left side
absent, no trailing newline) produces exactly the header lines
`diff --git a/x.txt b/x.txt`, `new file mode 100644`,
`index 0000000000..<first 10 hex chars of the content id>`, `--- /dev/null`,
`+++ b/x.txt`, the hunk header `@@ -1,0 +1,1 @@`, the line `+hi`, and the
`\ No newline at end of file` marker on its own line. -/
theorem show_git_diff_added_new_file (idHex : List Byte) :
    show_git_diff_added (ascii "x.txt") (git_diff_part_file idHex false (ascii "hi")) =
      ascii "diff --git a/x.txt b/x.txt\n" ++ ascii "new file mode 100644\n" ++
        (ascii "index 0000000000.." ++ idHex.take 10 ++ ascii "\n") ++
        ascii "--- /dev/null\n" ++ ascii "+++ b/x.txt\n" ++
        (ascii "@@ -1,0 +1,1 @@\n" ++ ascii "+hi" ++
          ascii "\n\\ No newline at end of file\n") := by
  have hU : show_unified_diff_hunks_bytes [] (ascii "hi") =
      ascii "@@ -1,0 +1,1 @@\n" ++ ascii "+hi" ++ ascii "\n\\ No newline at end of file\n" := by
    decide
  have hm : (git_diff_part_file idHex false (ascii "hi")).mode = ascii "100644" := rfl
  have hh : (git_diff_part_file idHex false (ascii "hi")).hash = idHex.take 10 := rfl
  have hc : (git_diff_part_file idHex false (ascii "hi")).content = ascii "hi" := rfl
  have h1 : ascii "diff --git a/" ++ ascii "x.txt" ++ ascii " b/" ++ ascii "x.txt" ++
      ascii "\n" = ascii "diff --git a/x.txt b/x.txt\n" := by decide
  have h2 : ascii "new file mode " ++ ascii "100644" ++ ascii "\n" =
      ascii "new file mode 100644\n" := by decide
  have h5 : ascii "+++ b/" ++ ascii "x.txt" ++ ascii "\n" = ascii "+++ b/x.txt\n" := by decide
  simp only [show_git_diff_added]
  rw [hm, hh, hc, hU, h1, h2, h5]

/-- A header line of git-format diff output, structured. -/
inductive GitHeaderLine
  | diffGit (path : List Byte)
  | oldMode (mode : List Byte)
  | newMode (mode : List Byte)
  | indexLine (leftHash rightHash : List Byte) (modeSuffix : Option (List Byte))
  | minusPath (path : List Byte)
  | plusPath (path : List Byte)
deriving DecidableEq

/-- Byte rendering of a structured git header line, matching the `writeln!`
format strings of `show_git_diff`. -/
def renderGitHeaderLine : GitHeaderLine → List Byte
  | .diffGit p => ascii "diff --git a/" ++ p ++ ascii " b/" ++ p ++ ascii "\n"
  | .oldMode m => ascii "old mode " ++ m ++ ascii "\n"
  | .newMode m => ascii "new mode " ++ m ++ ascii "\n"
  | .indexLine l r none => ascii "index " ++ l ++ ascii "..." ++ r ++ ascii "\n"
  | .indexLine l r (some m) =>
    ascii "index " ++ l ++ ascii "..." ++ r ++ ascii " " ++ m ++ ascii "\n"
  | .minusPath p => ascii "--- a/" ++ p ++ ascii "\n"
  | .plusPath p => ascii "+++ b/" ++ p ++ ascii "\n"

/-- Embedding of the header logic of the `right_value.is_present()` (modified
file) branch of `show_git_diff` in `cli/src/diff_util.rs`: `old mode` /
`new mode` lines when the modes differ (then an `index` line without mode
suffix when the hashes differ); an `index` line with the mode suffix when the
modes are equal and the hashes differ; `--- a/` and `+++ b/` lines when the
contents differ. -/
def show_git_diff_modified_header (pathString : List Byte) (leftPart rightPart : GitDiffPart) :
    List GitHeaderLine :=
  [GitHeaderLine.diffGit pathString] ++
  (if leftPart.mode ≠ rightPart.mode then
    [GitHeaderLine.oldMode leftPart.mode, GitHeaderLine.newMode rightPart.mode] ++
      (if leftPart.hash ≠ rightPart.hash then
        [GitHeaderLine.indexLine leftPart.hash rightPart.hash none]
      else [])
  else if leftPart.hash ≠ rightPart.hash then
    [GitHeaderLine.indexLine leftPart.hash rightPart.hash (some leftPart.mode)]
  else []) ++
  (if leftPart.content ≠ rightPart.content then
    [GitHeaderLine.minusPath pathString, GitHeaderLine.plusPath pathString]
  else [])

/-- Embedding of the full modified-file branch of `show_git_diff`: the header
lines followed by the unified hunks of the two contents. -/
def show_git_diff_modified (pathString : List Byte) (leftPart rightPart : GitDiffPart) :
    List Byte :=
  ((show_git_diff_modified_header pathString leftPart rightPart).map renderGitHeaderLine).flatten
    ++ show_unified_diff_hunks_bytes leftPart.content rightPart.content

/-- C5: in the git-format header of a path present on both sides, the
`old mode`/`new mode` lines appear exactly when the mode strings differ; an
`index` line carries the mode suffix exactly when the modes are equal (and
appears only when the hashes differ); and the `--- a/`/`+++ b/` lines appear
exactly when the contents differ. -/
theorem show_git_diff_modified_header_spec (p : List Byte) (l r : GitDiffPart) :
    (GitHeaderLine.oldMode l.mode ∈ show_git_diff_modified_header p l r ↔ l.mode ≠ r.mode) ∧
    (GitHeaderLine.newMode r.mode ∈ show_git_diff_modified_header p l r ↔ l.mode ≠ r.mode) ∧
    (GitHeaderLine.indexLine l.hash r.hash (some l.mode) ∈ show_git_diff_modified_header p l r ↔
      l.hash ≠ r.hash ∧ l.mode = r.mode) ∧
    (GitHeaderLine.indexLine l.hash r.hash none ∈ show_git_diff_modified_header p l r ↔
      l.hash ≠ r.hash ∧ l.mode ≠ r.mode) ∧
    (GitHeaderLine.minusPath p ∈ show_git_diff_modified_header p l r ↔
      l.content ≠ r.content) ∧
    (GitHeaderLine.plusPath p ∈ show_git_diff_modified_header p l r ↔
      l.content ≠ r.content) := by
  by_cases hm : l.mode = r.mode <;> by_cases hh : l.hash = r.hash <;>
    by_cases hc : l.content = r.content <;>
    simp [show_git_diff_modified_header, hm, hh, hc]

/-- Embedding of `jj_lib::files::DiffLine`: line numbers on each side,
whether the line has content on each side, and the intra-line hunks. -/
structure DiffLine where
  leftLineNumber : Nat
  rightLineNumber : Nat
  hasLeftContent : Bool
  hasRightContent : Bool
  hunks : List DiffSeg
deriving DecidableEq

/-- Embedding of `DiffLine::is_unmodified`: all intra-line hunks match. -/
def DiffLine.isUnmodified (d : DiffLine) : Bool :=
  d.hunks.all fun h =>
    match h with
    | DiffSeg.matching _ => true
    | DiffSeg.different _ _ => false

/-- The left-side bytes of a diff line (matching spans plus removed spans). -/
def DiffLine.leftBody (d : DiffLine) : List Byte := (d.hunks.map DiffSeg.leftBytes).flatten

/-- The right-side bytes of a diff line (matching spans plus added spans). -/
def DiffLine.rightBody (d : DiffLine) : List Byte := (d.hunks.map DiffSeg.rightBytes).flatten

/-- Unmodified diff lines for a block of shared lines, numbering both sides. -/
def matchingLines : Nat → Nat → List (List Byte) → List DiffLine
  | _, _, [] => []
  | ln, rn, l :: ls =>
    ⟨ln, rn, true, true, [DiffSeg.matching l]⟩ :: matchingLines (ln + 1) (rn + 1) ls

/-- Left-only diff lines for the left side of a differing segment. -/
def removedOnlyLines : Nat → Nat → List (List Byte) → List DiffLine
  | _, _, [] => []
  | ln, rn, l :: ls =>
    ⟨ln, rn, true, false, [DiffSeg.different l []]⟩ :: removedOnlyLines (ln + 1) rn ls

/-- Right-only diff lines for the right side of a differing segment. -/
def addedOnlyLines : Nat → Nat → List (List Byte) → List DiffLine
  | _, _, [] => []
  | ln, rn, l :: ls =>
    ⟨ln, rn, false, true, [DiffSeg.different [] l]⟩ :: addedOnlyLines ln (rn + 1) ls

/-- Modelled from the spec: the external per-line differ `jj_lib::files::diff`
(not part of the two source files), which turns the segment alternation into
one `DiffLine` per output line; the spec leaves the intra-line word differ
external, so differing segments are modelled as whole-line spans. -/
def filesDiffFromSegs : Nat → Nat → List DiffSeg → List DiffLine
  | _, _, [] => []
  | ln, rn, DiffSeg.matching c :: rest =>
    matchingLines ln rn (splitInclusive c) ++
      filesDiffFromSegs (ln + (splitInclusive c).length) (rn + (splitInclusive c).length) rest
  | ln, rn, DiffSeg.different a b :: rest =>
    removedOnlyLines ln rn (splitInclusive a) ++
      addedOnlyLines (ln + (splitInclusive a).length) rn (splitInclusive b) ++
      filesDiffFromSegs (ln + (splitInclusive a).length) (rn + (splitInclusive b).length) rest

/-- The modelled `files::diff(left, right)` line sequence. -/
def files_diff (left right : List Byte) : List DiffLine :=
  filesDiffFromSegs 1 1 (lineDiff left right)

theorem rightProj_matchingLines :
    ∀ (ln rn : Nat) (ls : List (List Byte)),
      ((matchingLines ln rn ls).filter (fun d => d.hasRightContent)).map DiffLine.rightBody = ls
  | _, _, [] => rfl
  | ln, rn, l :: ls => by
    simp [matchingLines, List.filter_cons, DiffLine.rightBody, DiffSeg.rightBytes,
      rightProj_matchingLines (ln + 1) (rn + 1) ls]

theorem rightProj_removedOnlyLines :
    ∀ (ln rn : Nat) (ls : List (List Byte)),
      ((removedOnlyLines ln rn ls).filter (fun d => d.hasRightContent)).map DiffLine.rightBody = []
  | _, _, [] => rfl
  | ln, rn, l :: ls => by
    simp [removedOnlyLines, List.filter_cons,
      rightProj_removedOnlyLines (ln + 1) rn ls]

theorem rightProj_addedOnlyLines :
    ∀ (ln rn : Nat) (ls : List (List Byte)),
      ((addedOnlyLines ln rn ls).filter (fun d => d.hasRightContent)).map DiffLine.rightBody = ls
  | _, _, [] => rfl
  | ln, rn, l :: ls => by
    simp [addedOnlyLines, List.filter_cons, DiffLine.rightBody, DiffSeg.rightBytes,
      rightProj_addedOnlyLines ln (rn + 1) ls]

theorem leftProj_matchingLines :
    ∀ (ln rn : Nat) (ls : List (List Byte)),
      ((matchingLines ln rn ls).filter (fun d => d.hasLeftContent)).map DiffLine.leftBody = ls
  | _, _, [] => rfl
  | ln, rn, l :: ls => by
    simp [matchingLines, List.filter_cons, DiffLine.leftBody, DiffSeg.leftBytes,
      leftProj_matchingLines (ln + 1) (rn + 1) ls]

theorem leftProj_removedOnlyLines :
    ∀ (ln rn : Nat) (ls : List (List Byte)),
      ((removedOnlyLines ln rn ls).filter (fun d => d.hasLeftContent)).map DiffLine.leftBody = ls
  | _, _, [] => rfl
  | ln, rn, l :: ls => by
    simp [removedOnlyLines, List.filter_cons, DiffLine.leftBody, DiffSeg.leftBytes,
      leftProj_removedOnlyLines (ln + 1) rn ls]

theorem leftProj_addedOnlyLines :
    ∀ (ln rn : Nat) (ls : List (List Byte)),
      ((addedOnlyLines ln rn ls).filter (fun d => d.hasLeftContent)).map DiffLine.leftBody = []
  | _, _, [] => rfl
  | ln, rn, l :: ls => by
    simp [addedOnlyLines, List.filter_cons, leftProj_addedOnlyLines ln (rn + 1) ls]

theorem rightProj_filesDiffFromSegs :
    ∀ (segs : List DiffSeg) (ln rn : Nat),
      ((filesDiffFromSegs ln rn segs).filter (fun d => d.hasRightContent)).map
          DiffLine.rightBody =
        (segs.map segRightLines).flatten := by
  intro segs
  induction segs with
  | nil => intro ln rn; rfl
  | cons s rest ih =>
    intro ln rn
    cases s with
    | matching c =>
      simp [filesDiffFromSegs, List.filter_append, rightProj_matchingLines, ih,
        segRightLines, DiffSeg.rightBytes]
    | different a b =>
      simp [filesDiffFromSegs, List.filter_append, rightProj_removedOnlyLines,
        rightProj_addedOnlyLines, ih, segRightLines, DiffSeg.rightBytes]

theorem leftProj_filesDiffFromSegs :
    ∀ (segs : List DiffSeg) (ln rn : Nat),
      ((filesDiffFromSegs ln rn segs).filter (fun d => d.hasLeftContent)).map
          DiffLine.leftBody =
        (segs.map segLeftLines).flatten := by
  intro segs
  induction segs with
  | nil => intro ln rn; rfl
  | cons s rest ih =>
    intro ln rn
    cases s with
    | matching c =>
      simp [filesDiffFromSegs, List.filter_append, leftProj_matchingLines, ih,
        segLeftLines, DiffSeg.leftBytes]
    | different a b =>
      simp [filesDiffFromSegs, List.filter_append, leftProj_removedOnlyLines,
        leftProj_addedOnlyLines, ih, segLeftLines, DiffSeg.leftBytes]

theorem rightProj_files_diff (L R : List Byte) :
    (((files_diff L R).filter (fun d => d.hasRightContent)).map DiffLine.rightBody) =
      splitInclusive R := by
  rw [files_diff, rightProj_filesDiffFromSegs, lineDiff_right_flatten]

theorem leftProj_files_diff (L R : List Byte) :
    (((files_diff L R).filter (fun d => d.hasLeftContent)).map DiffLine.leftBody) =
      splitInclusive L := by
  rw [files_diff, leftProj_filesDiffFromSegs, lineDiff_left_flatten]

/-- One item of the color-words rendering: a rendered diff line, the
`    ...` skip marker, or the synthetic trailing newline. -/
inductive ColorWordsItem
  | line (d : DiffLine)
  | skippedContextMarker
  | syntheticNewline
deriving DecidableEq

/-- The fixed `num_context_lines` of `show_color_words_diff_hunks`. -/
def numContextLinesCW : Nat := 3

/-- Loop state of `show_color_words_diff_hunks`: the buffered context deque,
the `skipped_context` and `context_before` flags, and the emitted items. -/
structure CWState where
  context : List DiffLine
  skippedContext : Bool
  contextBefore : Bool
  out : List ColorWordsItem
deriving DecidableEq

/-- Embedding of one iteration of the `for diff_line in files::diff(..)` loop
of `show_color_words_diff_hunks` in `cli/src/diff_util.rs`. -/
def cwStep (st : CWState) (d : DiffLine) : CWState :=
  if d.isUnmodified then
    let context := st.context ++ [d]
    if st.contextBefore then
      if st.skippedContext ∧ context.length > numContextLinesCW then
        { st with context := context.drop 1 }
      else if ¬st.skippedContext ∧ context.length > numContextLinesCW + 1 then
        { context := context.drop 2
          skippedContext := true
          contextBefore := true
          out := st.out ++ [ColorWordsItem.skippedContextMarker] }
      else { st with context := context }
    else
      if context.length > numContextLinesCW * 2 + 1 then
        { context := (context.drop numContextLinesCW).drop 2
          skippedContext := true
          contextBefore := true
          out := st.out ++ (context.take numContextLinesCW).map ColorWordsItem.line ++
            [ColorWordsItem.skippedContextMarker] }
      else { st with context := context }
  else
    { context := []
      skippedContext := false
      contextBefore := false
      out := st.out ++ st.context.map ColorWordsItem.line ++ [ColorWordsItem.line d] }

/-- Embedding of the post-loop `if !context_before { .. }` epilogue of
`show_color_words_diff_hunks`. -/
def cwFinish (st : CWState) : CWState :=
  if ¬st.contextBefore then
    if st.context.length > numContextLinesCW + 1 then
      { context := st.context.take numContextLinesCW
        skippedContext := true
        contextBefore := true
        out := st.out ++ (st.context.take numContextLinesCW).map ColorWordsItem.line ++
          [ColorWordsItem.skippedContextMarker] }
    else { st with out := st.out ++ st.context.map ColorWordsItem.line }
  else st

/-- Embedding of `show_color_words_diff_hunks(left, right, formatter)`: the
item stream written to the formatter, including the synthetic final newline
when no line was skipped, some content exists, and neither side ends with a
newline. -/
def show_color_words_diff_hunks_items (left right : List Byte) : List ColorWordsItem :=
  let st := (files_diff left right).foldl cwStep ⟨[], false, true, []⟩
  let st2 := cwFinish st
  if ¬st2.skippedContext ∧ ¬(left.isEmpty ∧ right.isEmpty) ∧
      ¬(endsWithNl left ∨ endsWithNl right) then
    st2.out ++ [ColorWordsItem.syntheticNewline]
  else st2.out

/-- The diff lines actually rendered, in order (markers stripped). -/
def cwLines (items : List ColorWordsItem) : List DiffLine :=
  items.filterMap fun it =>
    match it with
    | ColorWordsItem.line d => some d
    | _ => none

theorem cwLines_append (xs ys : List ColorWordsItem) :
    cwLines (xs ++ ys) = cwLines xs ++ cwLines ys := by
  simp [cwLines]

theorem cwLines_mapLine (ls : List DiffLine) :
    cwLines (ls.map ColorWordsItem.line) = ls := by
  induction ls with
  | nil => rfl
  | cons l ls ih => simpa [cwLines] using ih

theorem cwLines_marker : cwLines [ColorWordsItem.skippedContextMarker] = [] := rfl

theorem cwLines_single (d : DiffLine) : cwLines [ColorWordsItem.line d] = [d] := rfl

/-- Loop invariant of the color-words renderer: the rendered lines followed
by the buffered context form a subsequence of the consumed diff lines, the
buffer holds only unmodified lines, and every consumed modified line has been
rendered (in order). -/
def CWInv (st : CWState) (consumed : List DiffLine) : Prop :=
  (cwLines st.out ++ st.context).Sublist consumed ∧
  (∀ d ∈ st.context, d.isUnmodified = true) ∧
  consumed.filter (fun d => !d.isUnmodified) =
    (cwLines st.out).filter (fun d => !d.isUnmodified)

theorem cwInv_init : CWInv ⟨[], false, true, []⟩ [] := by
  refine ⟨by simp [cwLines], by simp, by simp [cwLines]⟩

theorem cwInv_step {st : CWState} {consumed : List DiffLine}
    (h : CWInv st consumed) (d : DiffLine) : CWInv (cwStep st d) (consumed ++ [d]) := by
  obtain ⟨hsub, hctx, hmod⟩ := h
  have hbig : (cwLines st.out ++ (st.context ++ [d])).Sublist (consumed ++ [d]) := by
    have := hsub.append (List.Sublist.refl [d])
    simpa [List.append_assoc] using this
  by_cases hu : d.isUnmodified
  · have hfilter : (consumed ++ [d]).filter (fun d => !d.isUnmodified) =
        (cwLines st.out).filter (fun d => !d.isUnmodified) := by
      rw [List.filter_append, hmod]
      simp [hu]
    have hctx' : ∀ x ∈ st.context ++ [d], x.isUnmodified = true := by
      intro x hx
      rcases List.mem_append.mp hx with hx | hx
      · exact hctx x hx
      · simp at hx
        subst hx
        exact hu
    rw [cwStep, if_pos hu]
    by_cases hb : st.contextBefore = true
    · rw [if_pos hb]
      by_cases h1 : st.skippedContext ∧ (st.context ++ [d]).length > numContextLinesCW
      · rw [if_pos h1]
        refine ⟨?_, ?_, hfilter⟩
        · refine List.Sublist.trans ?_ hbig
          exact (List.drop_sublist 1 (st.context ++ [d])).append_left _
        · intro x hx
          exact hctx' x (List.mem_of_mem_drop hx)
      · rw [if_neg h1]
        by_cases h2 : ¬st.skippedContext ∧ (st.context ++ [d]).length > numContextLinesCW + 1
        · rw [if_pos h2]
          refine ⟨?_, ?_, ?_⟩
          · refine List.Sublist.trans ?_ hbig
            simp only [cwLines_append, cwLines_marker, List.append_nil]
            exact (List.drop_sublist 2 (st.context ++ [d])).append_left _
          · intro x hx
            exact hctx' x (List.mem_of_mem_drop hx)
          · simpa [cwLines_append, cwLines_marker] using hfilter
        · rw [if_neg h2]
          exact ⟨hbig, hctx', hfilter⟩
    · rw [if_neg hb]
      by_cases h3 : (st.context ++ [d]).length > numContextLinesCW * 2 + 1
      · rw [if_pos h3]
        have hkeep : ((st.context ++ [d]).take numContextLinesCW ++
            (((st.context ++ [d]).drop numContextLinesCW).drop 2)).Sublist
              (st.context ++ [d]) := by
          have h4 : (((st.context ++ [d]).drop numContextLinesCW).drop 2).Sublist
              ((st.context ++ [d]).drop numContextLinesCW) := List.drop_sublist _ _
          have h5 := h4.append_left ((st.context ++ [d]).take numContextLinesCW)
          rwa [List.take_append_drop] at h5
        refine ⟨?_, ?_, ?_⟩
        · refine List.Sublist.trans ?_ hbig
          simp only [cwLines_append, cwLines_marker, cwLines_mapLine, List.append_nil]
          simpa [List.append_assoc] using hkeep.append_left (cwLines st.out)
        · intro x hx
          exact hctx' x (List.mem_of_mem_drop (List.mem_of_mem_drop hx))
        · rw [hfilter]
          simp only [cwLines_append, cwLines_marker, cwLines_mapLine, List.filter_append,
            List.append_nil]
          have : ((st.context ++ [d]).take numContextLinesCW).filter
              (fun d => !d.isUnmodified) = [] := by
            rw [List.filter_eq_nil_iff]
            intro x hx
            simp [hctx' x (List.mem_of_mem_take hx)]
          rw [this, List.append_nil]
      · rw [if_neg h3]
        exact ⟨hbig, hctx', hfilter⟩
  · rw [cwStep, if_neg hu]
    have hctxnil : st.context.filter (fun d => !d.isUnmodified) = [] := by
      rw [List.filter_eq_nil_iff]
      intro x hx
      simp [hctx x hx]
    refine ⟨?_, ?_, ?_⟩
    · rw [cwLines_append, cwLines_append, cwLines_mapLine, cwLines_single]
      simpa [List.append_assoc] using hbig
    · intro x hx
      simp at hx
    · rw [cwLines_append, cwLines_append, cwLines_mapLine, cwLines_single,
        List.filter_append, List.filter_append, List.filter_append, hmod, hctxnil]
      simp [hu]

theorem cwInv_fold :
    ∀ (ds : List DiffLine) (st : CWState) (consumed : List DiffLine),
      CWInv st consumed → CWInv (ds.foldl cwStep st) (consumed ++ ds) := by
  intro ds
  induction ds with
  | nil => intro st consumed h; simpa using h
  | cons d ds ih =>
    intro st consumed h
    have h1 := cwInv_step h d
    have h2 := ih _ _ h1
    simpa [List.append_assoc] using h2

theorem cwFinish_inv {st : CWState} {consumed : List DiffLine} (h : CWInv st consumed) :
    (cwLines (cwFinish st).out).Sublist consumed ∧
    consumed.filter (fun d => !d.isUnmodified) =
      (cwLines (cwFinish st).out).filter (fun d => !d.isUnmodified) := by
  obtain ⟨hsub, hctx, hmod⟩ := h
  rw [cwFinish]
  by_cases hb : ¬st.contextBefore = true
  · rw [if_pos hb]
    by_cases h1 : st.context.length > numContextLinesCW + 1
    · rw [if_pos h1]
      constructor
      · refine List.Sublist.trans ?_ hsub
        simp only [cwLines_append, cwLines_marker, cwLines_mapLine, List.append_nil]
        exact (List.take_sublist _ _).append_left _
      · rw [hmod]
        simp only [cwLines_append, cwLines_marker, cwLines_mapLine, List.filter_append,
          List.append_nil]
        have : (st.context.take numContextLinesCW).filter (fun d => !d.isUnmodified) = [] := by
          rw [List.filter_eq_nil_iff]
          intro x hx
          simp [hctx x (List.mem_of_mem_take hx)]
        rw [this, List.append_nil]
    · rw [if_neg h1]
      constructor
      · simpa [cwLines_append, cwLines_mapLine] using hsub
      · rw [hmod]
        simp only [cwLines_append, cwLines_mapLine, List.filter_append]
        have : st.context.filter (fun d => !d.isUnmodified) = [] := by
          rw [List.filter_eq_nil_iff]
          intro x hx
          simp [hctx x hx]
        rw [this, List.append_nil]
  · rw [if_neg hb]
    constructor
    · exact List.Sublist.trans (List.sublist_append_left _ _) hsub
    · exact hmod

theorem cwLines_show_color_words (left right : List Byte) :
    cwLines (show_color_words_diff_hunks_items left right) =
      cwLines (cwFinish ((files_diff left right).foldl cwStep ⟨[], false, true, []⟩)).out := by
  rw [show_color_words_diff_hunks_items]
  split_ifs with h
  · simp [cwLines_append, cwLines]
  · rfl

/-- C7 counterexample: for identical one-line buffers `"a\n"` the renderer
emits no lines at all, so the concatenation of the right-projected rendered
bodies is empty and does not equal R. -/
theorem color_words_claim_cex :
    ((((cwLines (show_color_words_diff_hunks_items (ascii "a\n") (ascii "a\n"))).filter
        (fun d => d.hasRightContent)).map DiffLine.rightBody).flatten) ≠ ascii "a\n" := by
  decide

/-- C7 as amended: the color-words renderer may elide unmodified context
lines behind skip markers, but never drops a modified line and never reorders
lines: the rendered lines form a subsequence of the diff's line sequence
containing every modified line, and consequently the right-content projection
of the rendered bodies is a subsequence of R's lines and the left-content
projection a subsequence of L's lines (equality holds exactly when nothing
was elided). -/
theorem color_words_no_modified_line_dropped (L R : List Byte) :
    (cwLines (show_color_words_diff_hunks_items L R)).Sublist (files_diff L R) ∧
    (files_diff L R).filter (fun d => !d.isUnmodified) =
      (cwLines (show_color_words_diff_hunks_items L R)).filter (fun d => !d.isUnmodified) ∧
    (((cwLines (show_color_words_diff_hunks_items L R)).filter
        (fun d => d.hasRightContent)).map DiffLine.rightBody).Sublist (splitInclusive R) ∧
    (((cwLines (show_color_words_diff_hunks_items L R)).filter
        (fun d => d.hasLeftContent)).map DiffLine.leftBody).Sublist (splitInclusive L) := by
  have hinv : CWInv ((files_diff L R).foldl cwStep ⟨[], false, true, []⟩) (files_diff L R) := by
    simpa using cwInv_fold (files_diff L R) _ [] cwInv_init
  obtain ⟨hsub, hmod⟩ := cwFinish_inv hinv
  rw [cwLines_show_color_words]
  refine ⟨hsub, hmod, ?_, ?_⟩
  · have h1 := (hsub.filter (fun d => d.hasRightContent)).map DiffLine.rightBody
    rwa [rightProj_files_diff] at h1
  · have h1 := (hsub.filter (fun d => d.hasLeftContent)).map DiffLine.leftBody
    rwa [leftProj_files_diff] at h1

/-- Embedding of `ToolConfig` from `cli/src/commands/fix.rs`.  The `command`
field's observable behaviour is the external subprocess of `run_tool`
(modelled from the spec: on successful exit the output bytes are the captured
stdout, and any spawn error, I/O error or non-zero exit is a failure), so it
is represented as a function from input bytes to `some` stdout bytes or
`none`.  The `matcher` is the externally compiled fileset matcher. -/
structure ToolConfig where
  run : List Byte → Option (List Byte)
  matcher : List Byte → Bool
  enabled : Bool

/-- Embedding of `ToolsConfig`: the tools in execution order. -/
structure ToolsConfig where
  tools : List ToolConfig

/-- Embedding of `CommandError` as produced by `config_error`. -/
inductive CommandErrorModel
  | configError (message : String)
deriving DecidableEq

/-- Insertion into a key-sorted entry list. -/
def insertByKey (e : String × ToolConfig) :
    List (String × ToolConfig) → List (String × ToolConfig)
  | [] => [e]
  | x :: xs => if e.1 < x.1 then e :: x :: xs else x :: insertByKey e xs

/-- Embedding of `.sorted()` over the `fix.tools` table keys (alphabetical;
keys of a table are distinct). -/
def sortByKey : List (String × ToolConfig) → List (String × ToolConfig)
  | [] => []
  | x :: xs => insertByKey x (sortByKey xs)

/-- Embedding of `get_tools_config` from `cli/src/commands/fix.rs`.  The
enumeration of the `fix.tools` table, the deserialization of each entry and
the fileset parsing/matcher compilation are external; the input is the list
of `(key, tool)` entries already deserialized.  The function sorts by key,
errors on an empty table, retains enabled tools, and errors when none
remain. -/
def get_tools_config (entries : List (String × ToolConfig)) :
    Except CommandErrorModel ToolsConfig :=
  let tools := (sortByKey entries).map Prod.snd
  if tools.isEmpty then
    Except.error (CommandErrorModel.configError "No `fix.tools` are configured")
  else
    let enabledTools := tools.filter (fun t => t.enabled)
    if enabledTools.isEmpty then
      Except.error (CommandErrorModel.configError
        "At least one entry of `fix.tools` must be enabled.")
    else
      Except.ok ⟨enabledTools⟩

/-- Embedding of `FileToFix`: a repo-relative path and a content id. -/
structure FileToFix where
  repoPath : List Byte
  fileId : Nat

/-- The content-addressed store, modelled as the list of stored blobs with
ids as indices. -/
structure StoreModel where
  blobs : List (List Byte)
deriving DecidableEq

/-- Embedding of `store.read_file` followed by `read_to_end`. -/
def StoreModel.readFile (st : StoreModel) (id : Nat) : List Byte := st.blobs.getD id []

/-- Embedding of `store.write_file`: stores the blob and returns its new id. -/
def StoreModel.writeFile (st : StoreModel) (content : List Byte) : Nat × StoreModel :=
  (st.blobs.length, ⟨st.blobs ++ [content]⟩)

/-- Embedding of `fix_one_file` from `cli/src/commands/fix.rs`: filter the
tools by matcher (the peekable-iterator emptiness check becomes `isEmpty`),
read the old content, left-fold the matching tools over it with a failing
tool keeping the accumulator, and write the result back iff it changed. -/
def fix_one_file (toolsConfig : ToolsConfig) (store : StoreModel) (fileToFix : FileToFix) :
    Option Nat × StoreModel :=
  let matchingTools := toolsConfig.tools.filter (fun t => t.matcher fileToFix.repoPath)
  if matchingTools.isEmpty then (none, store)
  else
    let oldContent := store.readFile fileToFix.fileId
    let newContent := matchingTools.foldl
      (fun prevContent toolConfig =>
        match toolConfig.run prevContent with
        | some nextContent => nextContent
        | none => prevContent)
      oldContent
    if newContent ≠ oldContent then
      (some (store.writeFile newContent).1, (store.writeFile newContent).2)
    else (none, store)

/-- Follows the spec's words (for claims C2 and C3): the final content of a
file is the left fold of its original bytes over exactly the configured tools
whose matcher accepts the path, in configured order, a failed tool acting as
the identity on the accumulator. -/
def specFinalContent (tools : List ToolConfig) (path old : List Byte) : List Byte :=
  (tools.filter (fun t => t.matcher path)).foldl
    (fun prevContent toolConfig => (toolConfig.run prevContent).getD prevContent) old

theorem sortByKey_perm (l : List (String × ToolConfig)) : (sortByKey l).Perm l := by
  induction l with
  | nil => exact List.Perm.refl _
  | cons x xs ih =>
    have hins : ∀ (e : String × ToolConfig) (ys : List (String × ToolConfig)),
        (insertByKey e ys).Perm (e :: ys) := by
      intro e ys
      induction ys with
      | nil => exact List.Perm.refl _
      | cons y ys ihy =>
        rw [insertByKey]
        by_cases hlt : e.1 < y.1
        · rw [if_pos hlt]
        · rw [if_neg hlt]
          exact (ihy.cons y).trans (List.Perm.swap e y ys)
    exact (hins x (sortByKey xs)).trans (ih.cons x)

theorem get_tools_config_eq (entries : List (String × ToolConfig)) :
    get_tools_config entries =
      (if ((sortByKey entries).map Prod.snd).isEmpty then
        Except.error (CommandErrorModel.configError "No `fix.tools` are configured")
      else if (((sortByKey entries).map Prod.snd).filter (fun t => t.enabled)).isEmpty then
        Except.error (CommandErrorModel.configError
          "At least one entry of `fix.tools` must be enabled.")
      else
        Except.ok ⟨((sortByKey entries).map Prod.snd).filter (fun t => t.enabled)⟩) := rfl

theorem tools_isEmpty_iff (entries : List (String × ToolConfig)) :
    ((sortByKey entries).map Prod.snd).isEmpty = true ↔ entries = [] := by
  rw [List.isEmpty_iff, List.map_eq_nil_iff]
  constructor
  · intro h
    have := sortByKey_perm entries
    rw [h] at this
    exact this.symm.eq_nil
  · rintro rfl
    rfl

theorem enabled_isEmpty_iff (entries : List (String × ToolConfig)) :
    (((sortByKey entries).map Prod.snd).filter (fun t => t.enabled)).isEmpty = true ↔
      ∀ e ∈ entries, e.2.enabled = false := by
  rw [List.isEmpty_iff, List.filter_eq_nil_iff]
  constructor
  · intro h e he
    have := h e.2 (List.mem_map_of_mem _ ((sortByKey_perm entries).mem_iff.mpr he))
    simpa using this
  · intro h t ht
    obtain ⟨e, he, rfl⟩ := List.mem_map.mp ht
    simp [h e ((sortByKey_perm entries).mem_iff.mp he)]

/-- C6 as amended: loading the tool configuration fails with the config error
"No `fix.tools` are configured" exactly when there are zero entries under the
`fix.tools` table, fails with the config error "At least one entry of
`fix.tools` must be enabled." (the code's message carries a trailing period)
exactly when entries exist but every entry is disabled, and otherwise returns
the nonempty list of enabled tools in key order. -/
theorem get_tools_config_spec (entries : List (String × ToolConfig)) :
    (get_tools_config entries =
        Except.error (CommandErrorModel.configError "No `fix.tools` are configured") ↔
      entries = []) ∧
    (get_tools_config entries =
        Except.error (CommandErrorModel.configError
          "At least one entry of `fix.tools` must be enabled.") ↔
      entries ≠ [] ∧ ∀ e ∈ entries, e.2.enabled = false) ∧
    (∀ cfg, get_tools_config entries = Except.ok cfg →
      cfg.tools = ((sortByKey entries).map Prod.snd).filter (fun t => t.enabled) ∧
        cfg.tools ≠ []) := by
  have hmsg : ("No `fix.tools` are configured" : String) ≠
      "At least one entry of `fix.tools` must be enabled." := by decide
  rw [get_tools_config_eq]
  by_cases h1 : ((sortByKey entries).map Prod.snd).isEmpty = true
  · rw [if_pos h1]
    have he : entries = [] := (tools_isEmpty_iff entries).mp h1
    refine ⟨by simp [he], ?_, ?_⟩
    · constructor
      · intro h
        injection h with h'
        injection h' with h''
        exact absurd h'' hmsg
      · rintro ⟨hne, -⟩
        exact absurd he hne
    · intro cfg h
      exact absurd h (by simp)
  · rw [if_neg h1]
    by_cases h2 : (((sortByKey entries).map Prod.snd).filter (fun t => t.enabled)).isEmpty = true
    · rw [if_pos h2]
      refine ⟨?_, ?_, ?_⟩
      · constructor
        · intro h
          injection h with h'
          injection h' with h''
          exact absurd h''.symm hmsg
        · rintro rfl
          exact absurd ((tools_isEmpty_iff []).mpr rfl) h1
      · constructor
        · intro _
          exact ⟨fun he => h1 ((tools_isEmpty_iff entries).mpr he),
            (enabled_isEmpty_iff entries).mp h2⟩
        · intro _
          rfl
      · intro cfg h
        exact absurd h (by simp)
    · rw [if_neg h2]
      refine ⟨?_, ?_, ?_⟩
      · constructor
        · intro h
          exact absurd h (by simp)
        · intro he
          exact absurd ((tools_isEmpty_iff entries).mpr he) h1
      · constructor
        · intro h
          exact absurd h (by simp)
        · rintro ⟨-, hall⟩
          exact absurd ((enabled_isEmpty_iff entries).mpr hall) h2
      · intro cfg h
        simp only [Except.ok.injEq] at h
        rw [← h]
        refine ⟨rfl, ?_⟩
        intro hnil
        rw [List.isEmpty_iff] at h2
        exact h2 hnil

/-- A concrete enabled tool used for witnesses: matches every path and
rewrites any content to `"X"`. -/
def toolW : ToolConfig :=
  { run := fun _ => some [88], matcher := fun _ => true, enabled := true }

/-- A concrete disabled tool used for the C6 counterexample. -/
def toolDisabled : ToolConfig :=
  { run := fun _ => none, matcher := fun _ => false, enabled := false }

/-- Witness for C6 at a concrete input: one enabled entry loads as the
singleton tool list. -/
theorem get_tools_config_spec_witness :
    get_tools_config [("a", toolW)] = Except.ok ⟨[toolW]⟩ ∧
      (ToolsConfig.mk [toolW]).tools =
          ((sortByKey [("a", toolW)]).map Prod.snd).filter (fun t => t.enabled) ∧
        (ToolsConfig.mk [toolW]).tools ≠ [] :=
  ⟨rfl, (get_tools_config_spec [("a", toolW)]).2.2 ⟨[toolW]⟩ rfl⟩

/-- C6 counterexample: with a single disabled entry, the code produces the
error message with a trailing period, so the claim's message (without the
period) is not the error produced. -/
theorem get_tools_config_message_cex :
    get_tools_config [("a", toolDisabled)] =
        Except.error (CommandErrorModel.configError
          "At least one entry of `fix.tools` must be enabled.") ∧
      get_tools_config [("a", toolDisabled)] ≠
        Except.error (CommandErrorModel.configError
          "At least one entry of `fix.tools` must be enabled") := by
  refine ⟨rfl, ?_⟩
  intro h
  rw [show get_tools_config [("a", toolDisabled)] =
      Except.error (CommandErrorModel.configError
        "At least one entry of `fix.tools` must be enabled.") from rfl] at h
  injection h with h1
  injection h1 with h2
  exact absurd h2 (by decide)

/-- C2: with a loaded tool configuration, the content computed by
`fix_one_file` is exactly the left fold of the original bytes over the
matcher-filtered tools in loaded order (alphabetical by key, disabled tools
dropped), a failing tool acting as the identity; the new content is written
(returning the fresh id) exactly when the fold changed the bytes. -/
theorem fix_one_file_fold_spec (entries : List (String × ToolConfig)) (cfg : ToolsConfig)
    (store : StoreModel) (ftf : FileToFix)
    (h : get_tools_config entries = Except.ok cfg) :
    cfg.tools = ((sortByKey entries).map Prod.snd).filter (fun t => t.enabled) ∧
      fix_one_file cfg store ftf =
        (if specFinalContent cfg.tools ftf.repoPath (store.readFile ftf.fileId) =
            store.readFile ftf.fileId then (none, store)
        else
          (some (store.writeFile (specFinalContent cfg.tools ftf.repoPath
              (store.readFile ftf.fileId))).1,
            (store.writeFile (specFinalContent cfg.tools ftf.repoPath
              (store.readFile ftf.fileId))).2)) := by
  constructor
  · exact ((get_tools_config_spec entries).2.2 cfg h).1
  · rw [fix_one_file, specFinalContent]
    have hfold : ∀ (ts : List ToolConfig) (old : List Byte),
        ts.foldl (fun prevContent toolConfig =>
          match toolConfig.run prevContent with
          | some nextContent => nextContent
          | none => prevContent) old =
        ts.foldl (fun prevContent toolConfig =>
          (toolConfig.run prevContent).getD prevContent) old := by
      intro ts
      induction ts with
      | nil => intro old; rfl
      | cons t ts ih =>
        intro old
        simp only [List.foldl_cons, ih]
        cases t.run old <;> rfl
    by_cases hempty : (cfg.tools.filter (fun t => t.matcher ftf.repoPath)).isEmpty = true
    · have hnil : cfg.tools.filter (fun t => t.matcher ftf.repoPath) = [] :=
        List.isEmpty_iff.mp hempty
      rw [if_pos hempty, hnil]
      simp
    · rw [if_neg hempty]
      dsimp only
      rw [hfold]
      by_cases heq : (cfg.tools.filter (fun t => t.matcher ftf.repoPath)).foldl
          (fun prevContent toolConfig =>
            (toolConfig.run prevContent).getD prevContent)
          (store.readFile ftf.fileId) = store.readFile ftf.fileId
      · simp [heq]
      · simp [heq]

/-- Witness for C2: one enabled always-matching tool rewriting `"h"` to
`"X"`, so the store gains the folded content under a fresh id. -/
theorem fix_one_file_fold_spec_witness :
    get_tools_config [("a", toolW)] = Except.ok ⟨[toolW]⟩ ∧
      ((ToolsConfig.mk [toolW]).tools =
          ((sortByKey [("a", toolW)]).map Prod.snd).filter (fun t => t.enabled) ∧
        fix_one_file ⟨[toolW]⟩ ⟨[[104]]⟩ ⟨[102], 0⟩ =
          (if specFinalContent (ToolsConfig.mk [toolW]).tools [102]
              (StoreModel.readFile ⟨[[104]]⟩ 0) = StoreModel.readFile ⟨[[104]]⟩ 0
            then (none, ⟨[[104]]⟩)
          else
            (some (StoreModel.writeFile ⟨[[104]]⟩ (specFinalContent
                (ToolsConfig.mk [toolW]).tools [102] (StoreModel.readFile ⟨[[104]]⟩ 0))).1,
              (StoreModel.writeFile ⟨[[104]]⟩ (specFinalContent
                (ToolsConfig.mk [toolW]).tools [102] (StoreModel.readFile ⟨[[104]]⟩ 0))).2))) :=
  ⟨rfl, fix_one_file_fold_spec [("a", toolW)] ⟨[toolW]⟩ ⟨[[104]]⟩ ⟨[102], 0⟩ rfl⟩

/-- C3: `fix_one_file` leaves the store unchanged exactly when the folded
bytes equal the original bytes read for the input content id (in particular
when no configured tool's matcher accepts the path), and returns `none`
("unchanged") in exactly the same cases; otherwise the folded bytes are
written. -/
theorem fix_one_file_store_write_iff (cfg : ToolsConfig) (store : StoreModel)
    (ftf : FileToFix) :
    ((fix_one_file cfg store ftf).2 = store ↔
      specFinalContent cfg.tools ftf.repoPath (store.readFile ftf.fileId) =
        store.readFile ftf.fileId) ∧
    ((fix_one_file cfg store ftf).1 = none ↔
      specFinalContent cfg.tools ftf.repoPath (store.readFile ftf.fileId) =
        store.readFile ftf.fileId) ∧
    ((cfg.tools.filter (fun t => t.matcher ftf.repoPath)).isEmpty = true →
      fix_one_file cfg store ftf = (none, store)) := by
  have hfold : ∀ (ts : List ToolConfig) (old : List Byte),
      ts.foldl (fun prevContent toolConfig =>
        match toolConfig.run prevContent with
        | some nextContent => nextContent
        | none => prevContent) old =
      ts.foldl (fun prevContent toolConfig =>
        (toolConfig.run prevContent).getD prevContent) old := by
    intro ts
    induction ts with
    | nil => intro old; rfl
    | cons t ts ih =>
      intro old
      simp only [List.foldl_cons, ih]
      cases t.run old <;> rfl
  obtain ⟨blobs⟩ := store
  by_cases hempty : (cfg.tools.filter (fun t => t.matcher ftf.repoPath)).isEmpty = true
  · have hnil : cfg.tools.filter (fun t => t.matcher ftf.repoPath) = [] :=
      List.isEmpty_iff.mp hempty
    rw [fix_one_file, specFinalContent, if_pos hempty, hnil]
    simp
  · rw [fix_one_file, specFinalContent, if_neg hempty]
    dsimp only
    rw [hfold]
    by_cases heq : (cfg.tools.filter (fun t => t.matcher ftf.repoPath)).foldl
        (fun prevContent toolConfig =>
          (toolConfig.run prevContent).getD prevContent)
        (StoreModel.readFile ⟨blobs⟩ ftf.fileId) = StoreModel.readFile ⟨blobs⟩ ftf.fileId
    · refine ⟨?_, ?_, fun hcontra => absurd hcontra hempty⟩
      · simp [heq]
      · simp [heq]
    · refine ⟨?_, ?_, fun hcontra => absurd hcontra hempty⟩
      · simp only [if_pos heq, heq]
        constructor
        · intro hcontra
          apply absurd (congrArg (fun s => s.blobs.length) hcontra)
          simp [StoreModel.writeFile, heq]
        · intro h
          exact h.elim
      · simp [heq]

/-- Witness for C3: with no configured tools nothing matches, the result is
"unchanged" and the store is untouched. -/
theorem fix_one_file_store_write_iff_witness :
    ((ToolsConfig.mk []).tools.filter (fun t => t.matcher ([102] : List Byte))).isEmpty =
        true ∧
      fix_one_file ⟨[]⟩ ⟨[[104]]⟩ ⟨[102], 0⟩ = (none, ⟨[[104]]⟩) :=
  ⟨rfl, (fix_one_file_store_write_iff ⟨[]⟩ ⟨[[104]]⟩ ⟨[102], 0⟩).2.2 rfl⟩

end JJSpec
